import Mathlib

/-!
Shallow embedding of the abridged MTProto transport codec
(`lib/grammers-mtproto/src/transport/abridged.rs`).

Bytes are modelled as natural numbers and byte buffers as lists of
naturals. The two output sinks of the source (`RingBuffer<u8>` for
`pack`, `BytesMut` for `unpack`) only ever receive appended bytes, so
both are modelled as lists that grow at the end; `push`, `extend` and
`put` all become list append. The `assert_eq!(input.len() % 4, 0)` at
the top of `pack` is modelled by returning `none` (a Rust panic), and
the cast `input.len() as i32` in `unpack` is modelled faithfully by
`usizeAsI32`.
-/

namespace Transport

/-- Transport error type. Modelled from the spec: the `Error` enum is
defined in the parent transport module, outside this file; the abridged
codec only ever produces the `MissingBytes` variant, the recoverable
signal that the input does not yet hold a full envelope. -/
inductive Error where
  | MissingBytes
  deriving DecidableEq

end Transport

/-- Truncating cast of a (64-bit) unsigned machine length to a signed
32-bit integer, as performed by `input.len() as i32` in the source:
keep the low 32 bits and reinterpret them in two's complement. -/
def usizeAsI32 (n : Nat) : Int :=
  let m : Nat := n % 2 ^ 32
  if m < 2 ^ 31 then (m : Int) else (m : Int) - 2 ^ 32

/-- The three low-order little-endian bytes of a word count, as produced
by `(len as u32).to_le_bytes()[..3]` in `pack`: first truncate to 32
bits, then take the low three bytes. -/
def toLeBytes3 (n : Nat) : List Nat :=
  let m := n % 2 ^ 32
  [m % 256, m / 256 % 256, m / 65536 % 256]

/-- The abridged transport codec. Its only state is the `init` flag
recording whether the leading `0xEF` marker byte has been emitted. -/
structure Abridged where
  init : Bool
  deriving DecidableEq

/-- `Abridged::new`: a fresh codec with `init = false`. -/
def Abridged.new : Abridged := ⟨false⟩

/-- `Abridged::pack`. Returns `none` when the `assert_eq!` on the
payload length fires (a panic, before any byte is appended), otherwise
`some` of the updated codec state and the output sink with the marker
(on the first call), the header and the payload appended. -/
def Abridged.pack (t : Abridged) (input : List Nat) (output : List Nat) :
    Option (Abridged × List Nat) :=
  if input.length % 4 ≠ 0 then
    none
  else
    let step := if t.init then (t, output) else (⟨true⟩, output ++ [0xef])
    let t1 := step.1
    let output := step.2
    let len := input.length / 4
    if len < 127 then
      some (t1, output ++ [len] ++ input)
    else
      some (t1, output ++ [0x7f] ++ toLeBytes3 len ++ input)

/-- Body of `Abridged::unpack`, which never reads the codec state: on
success it returns the output sink with the decoded payload appended,
together with the number of input bytes consumed. -/
def unpackBytes (input : List Nat) (output : List Nat) :
    Except Transport.Error (List Nat × Nat) :=
  if input.length = 0 then
    Except.error Transport.Error.MissingBytes
  else if input.headI < 127 then
    let headerLen := 1
    let len := input.headI * 4
    if usizeAsI32 input.length < (headerLen + len : Nat) then
      Except.error Transport.Error.MissingBytes
    else
      Except.ok (output ++ (input.drop headerLen).take len, headerLen + len)
  else if input.length < 4 then
    Except.error Transport.Error.MissingBytes
  else
    let headerLen := 4
    let len := (input.getD 1 0 + input.getD 2 0 * 256 + input.getD 3 0 * 65536) * 4
    if usizeAsI32 input.length < (headerLen + len : Nat) then
      Except.error Transport.Error.MissingBytes
    else
      Except.ok (output ++ (input.drop headerLen).take len, headerLen + len)

/-- `Abridged::unpack` as a method: the body (`unpackBytes`) never
mentions `self`, so the codec state is passed through unchanged. -/
def Abridged.unpack (t : Abridged) (input : List Nat) (output : List Nat) :
    Except Transport.Error (Abridged × List Nat × Nat) :=
  match unpackBytes input output with
  | Except.error e => Except.error e
  | Except.ok (o, n) => Except.ok (t, o, n)

/-- `Abridged::reset`: set `init` back to `false`. -/
def Abridged.reset (t : Abridged) : Abridged := { t with init := false }

/-- Drop a leading `0xEF` marker byte when present. -/
def stripMarker (l : List Nat) : List Nat :=
  if l.headI = 0xef then l.tail else l

/-- Header length selected by the first input byte: one byte for a
discriminant below 127, four bytes otherwise. -/
def headerLenOf (input : List Nat) : Nat :=
  if input.headI < 127 then 1 else 4

/-- Word count decoded from the header of an input: the first byte
itself in the short form, the 24-bit little-endian value of the next
three bytes in the long form. -/
def wordCountOf (input : List Nat) : Nat :=
  if input.headI < 127 then input.headI
  else input.getD 1 0 + input.getD 2 0 * 256 + input.getD 3 0 * 65536

/-- The envelope `pack` builds for a word-aligned payload, marker byte
aside: a one-byte header holding the word count when it is below 127,
otherwise the sentinel `0x7F` followed by the word count in three
little-endian bytes. -/
def envelope (P : List Nat) : List Nat :=
  if P.length / 4 < 127 then P.length / 4 :: P
  else 0x7f :: (toLeBytes3 (P.length / 4) ++ P)

/-- Sequence of `pack` calls on one codec instance, threading the state
and the output sink; `none` as soon as one call panics. -/
def packAll (t : Abridged) (ps : List (List Nat)) (output : List Nat) :
    Option (Abridged × List Nat) :=
  match ps with
  | [] => some (t, output)
  | p :: rest =>
    match t.pack p output with
    | none => none
    | some (t2, out2) => packAll t2 rest out2

/-- Below the threshold `2 ^ 31`, the truncating cast is the identity. -/
theorem usizeAsI32_eq_of_lt (n : Nat) (h : n < 2 ^ 31) :
    usizeAsI32 n = (n : Int) := by
  unfold usizeAsI32
  rw [Nat.mod_eq_of_lt (by omega)]
  rw [if_pos h]

/-- Under the alignment precondition, `pack` always succeeds, leaves the
codec with `init = true`, and appends the marker (when not yet emitted)
followed by the envelope of the payload. -/
theorem pack_eq (t : Abridged) (P out : List Nat) (h4 : P.length % 4 = 0) :
    t.pack P out =
      some (⟨true⟩, out ++ (if t.init then [] else [0xef]) ++ envelope P) := by
  cases t with
  | mk i =>
    cases i <;>
      simp only [Abridged.pack, envelope, h4, ne_eq, not_true_eq_false,
        not_false_eq_true, if_true, if_false, ite_true, ite_false,
        reduceIte] <;>
      split <;>
      simp [List.append_assoc]

/-- Length of an envelope: header length plus payload length. -/
theorem envelope_length (P : List Nat) :
    (envelope P).length = (if P.length / 4 < 127 then 1 else 4) + P.length := by
  unfold envelope toLeBytes3
  split <;> simp <;> omega

/-- Recomposing a word count below `2 ^ 24` from its three low-order
little-endian bytes gives the word count back. -/
theorem le3_recompose (wc : Nat) (h : wc < 2 ^ 24) :
    wc % 2 ^ 32 % 256 + wc % 2 ^ 32 / 256 % 256 * 256 +
      wc % 2 ^ 32 / 65536 % 256 * 65536 = wc := by
  rw [Nat.mod_eq_of_lt (by omega : wc < 2 ^ 32)]
  omega

/-- Behaviour of `unpackBytes` on a short-form input whose payload is
fully present: it consumes the header byte plus `b * 4` payload bytes. -/
theorem unpackBytes_short (b : Nat) (tl out : List Nat) (hb : b < 127)
    (hlen : 1 + tl.length < 2 ^ 31) (hsz : b * 4 ≤ tl.length) :
    unpackBytes (b :: tl) out =
      Except.ok (out ++ tl.take (b * 4), 1 + b * 4) := by
  have hu : usizeAsI32 (tl.length + 1) = ((tl.length + 1 : Nat) : Int) :=
    usizeAsI32_eq_of_lt _ (by omega)
  simp [unpackBytes, hb, hu]
  omega

/-- Behaviour of `unpackBytes` on a long-form input whose payload is
fully present: the word count is read from three little-endian bytes. -/
theorem unpackBytes_long (b b1 b2 b3 : Nat) (tl out : List Nat)
    (hb : 127 ≤ b) (hlen : 4 + tl.length < 2 ^ 31)
    (hsz : (b1 + b2 * 256 + b3 * 65536) * 4 ≤ tl.length) :
    unpackBytes (b :: b1 :: b2 :: b3 :: tl) out =
      Except.ok (out ++ tl.take ((b1 + b2 * 256 + b3 * 65536) * 4),
        4 + (b1 + b2 * 256 + b3 * 65536) * 4) := by
  have hu : usizeAsI32 (tl.length + 1 + 1 + 1 + 1) =
      ((tl.length + 1 + 1 + 1 + 1 : Nat) : Int) :=
    usizeAsI32_eq_of_lt _ (by omega)
  have hnb : ¬ b < 127 := by omega
  simp [unpackBytes, hnb, hu]
  rw [if_neg (by omega), if_neg (by omega)]

/-- Decoding a well-formed envelope followed by arbitrary extra bytes
recovers exactly the payload and consumes exactly the envelope. -/
theorem unpack_envelope (P rest out : List Nat) (h4 : P.length % 4 = 0)
    (hwc : P.length / 4 < 2 ^ 24)
    (hlen : (envelope P).length + rest.length < 2 ^ 31) :
    unpackBytes (envelope P ++ rest) out =
      Except.ok (out ++ P, (envelope P).length) := by
  have hP4 : P.length / 4 * 4 = P.length := by omega
  by_cases hs : P.length / 4 < 127
  · have henv : envelope P = P.length / 4 :: P := by simp [envelope, hs]
    rw [henv, List.cons_append]
    rw [unpackBytes_short (P.length / 4) (P ++ rest) out hs
      (by rw [henv] at hlen; simp at hlen ⊢; omega)
      (by rw [hP4]; simp)]
    rw [hP4, List.take_left]
    simp
    omega
  · have henv : envelope P =
        0x7f :: (P.length / 4 % 256 :: P.length / 4 / 256 % 256 ::
          P.length / 4 / 65536 % 256 :: P) := by
      unfold envelope toLeBytes3
      rw [if_neg hs]
      rw [Nat.mod_eq_of_lt (show P.length / 4 < 2 ^ 32 by omega)]
      simp [List.cons_append]
    have hrec : P.length / 4 % 256 + P.length / 4 / 256 % 256 * 256 +
        P.length / 4 / 65536 % 256 * 65536 = P.length / 4 := by
      have := le3_recompose (P.length / 4) hwc
      rw [Nat.mod_eq_of_lt (show P.length / 4 < 2 ^ 32 by omega)] at this
      exact this
    rw [henv]
    simp only [List.cons_append]
    rw [unpackBytes_long _ _ _ _ (P ++ rest) out (by omega)
      (by rw [henv] at hlen; simp at hlen ⊢; omega)
      (by rw [hrec, hP4]; simp)]
    rw [hrec, hP4, List.take_left]
    simp
    omega

/-- Every envelope starts with a byte below 128: the word count itself
in the short form, the sentinel `0x7F` in the long form. In particular
no envelope begins with the marker byte `0xEF`. -/
theorem envelope_headI_lt (P : List Nat) : (envelope P).headI < 128 := by
  unfold envelope
  split
  · simp only [List.headI_cons]
    omega
  · simp

/-- Stripping the marker from what `pack` appends always leaves exactly
the envelope, whether or not the marker was emitted. -/
theorem stripMarker_pack (t : Abridged) (P : List Nat) :
    stripMarker ((if t.init then [] else [0xef]) ++ envelope P) =
      envelope P := by
  have h := envelope_headI_lt P
  cases t with
  | mk i =>
    cases i
    · simp [stripMarker]
    · simp only [show (Abridged.mk true).init = true from rfl, if_true,
        List.nil_append]
      unfold stripMarker
      rw [if_neg (by omega)]

/-- Arithmetic characterization of `unpackBytes` for inputs shorter
than `2 ^ 31` bytes, where the signed 32-bit cast of the length is the
identity: the call fails with `MissingBytes` exactly when the input is
empty, the long form is selected with fewer than four bytes present, or
the input is shorter than the decoded envelope; otherwise it succeeds
and appends the payload slice. -/
theorem unpackBytes_eq (input out : List Nat)
    (hlen : input.length < 2 ^ 31) :
    unpackBytes input out =
      if input.length = 0 ∨ (127 ≤ input.headI ∧ input.length < 4) ∨
          input.length < headerLenOf input + wordCountOf input * 4 then
        Except.error Transport.Error.MissingBytes
      else
        Except.ok
          (out ++ (input.drop (headerLenOf input)).take
            (wordCountOf input * 4),
            headerLenOf input + wordCountOf input * 4) := by
  have hu := usizeAsI32_eq_of_lt input.length hlen
  by_cases h0 : input.length = 0
  · rw [if_pos (Or.inl h0)]
    simp [unpackBytes, h0]
  · by_cases hh : input.headI < 127
    · have hHL : headerLenOf input = 1 := by simp [headerLenOf, hh]
      have hWC : wordCountOf input = input.headI := by
        simp [wordCountOf, hh]
      rw [hHL, hWC]
      simp only [unpackBytes, h0, hh, if_false, if_true, ite_false,
        ite_true, hu]
      split_ifs <;>
        first
          | rfl
          | (exfalso
             try casesm* _ ∨ _, _ ∧ _
             all_goals first | contradiction | omega)
    · have hHL : headerLenOf input = 4 := by simp [headerLenOf, hh]
      have hWC : wordCountOf input =
          input.getD 1 0 + input.getD 2 0 * 256 + input.getD 3 0 * 65536 := by
        simp [wordCountOf, hh]
      rw [hHL, hWC]
      simp only [unpackBytes, h0, hh, if_false, if_true, ite_false,
        ite_true, hu]
      split_ifs <;>
        first
          | rfl
          | (exfalso
             try casesm* _ ∨ _, _ ∧ _
             all_goals first | contradiction | omega)

/-- Running a sequence of `pack` calls on an already initialized codec
appends exactly the envelopes, with no marker byte. -/
theorem packAll_of_init (ps : List (List Nat)) :
    ∀ out, (∀ p ∈ ps, p.length % 4 = 0) →
      packAll ⟨true⟩ ps out =
        some (⟨true⟩, out ++ (ps.map envelope).flatten) := by
  induction ps with
  | nil =>
    intro out _
    simp [packAll]
  | cons p rest ih =>
    intro out hal
    have h4 : p.length % 4 = 0 := hal p (by simp)
    simp only [packAll, pack_eq ⟨true⟩ p out h4]
    rw [ih _ (fun q hq => hal q (by simp [hq]))]
    simp [List.append_assoc]

/-- C1: Round-trip. For every word-aligned payload whose word count is
below `2 ^ 24`, packing on any codec instance and then unpacking the
resulting envelope with the leading `0xEF` marker stripped (when
present) appends exactly the payload to the output sink and returns a
consumed count equal to the full envelope length, that is the header
length plus the payload length. -/
theorem C1_round_trip (t : Abridged) (P out : List Nat)
    (h4 : P.length % 4 = 0) (hwc : P.length / 4 < 2 ^ 24) :
    ∃ t2 packed, t.pack P [] = some (t2, packed) ∧
      unpackBytes (stripMarker packed) out =
        Except.ok (out ++ P, (stripMarker packed).length) ∧
      (stripMarker packed).length =
        (if P.length / 4 < 127 then 1 else 4) + P.length := by
  refine ⟨⟨true⟩, (if t.init then [] else [0xef]) ++ envelope P, ?_, ?_, ?_⟩
  · have h := pack_eq t P [] h4
    simpa using h
  · rw [stripMarker_pack t P]
    have hlt : (envelope P).length + ([] : List Nat).length < 2 ^ 31 := by
      have h := envelope_length P
      simp only [List.length_nil]
      split at h <;> omega
    have h := unpack_envelope P [] out h4 hwc hlt
    simpa using h
  · rw [stripMarker_pack t P, envelope_length P]

/-- Witness for C1 at the payload `[1, 2, 3, 4]` on a fresh codec, with
a nonempty starting output sink. -/
theorem C1_round_trip_witness :
    ([1, 2, 3, 4] : List Nat).length % 4 = 0 ∧
    ([1, 2, 3, 4] : List Nat).length / 4 < 2 ^ 24 ∧
    ∃ t2 packed, Abridged.new.pack [1, 2, 3, 4] [] = some (t2, packed) ∧
      unpackBytes (stripMarker packed) [9] =
        Except.ok ([9] ++ [1, 2, 3, 4], (stripMarker packed).length) ∧
      (stripMarker packed).length =
        (if ([1, 2, 3, 4] : List Nat).length / 4 < 127 then 1 else 4) +
          ([1, 2, 3, 4] : List Nat).length :=
  ⟨by decide, by decide,
    C1_round_trip Abridged.new [1, 2, 3, 4] [9] (by decide) (by decide)⟩
/-- C2 counterexample: an input of `2 ^ 31` bytes whose first byte is 0
is none of the three listed `MissingBytes` cases — it is nonempty, its
first byte selects the short form, and the whole (one byte plus zero
word) envelope is present — yet `unpack` fails with `MissingBytes`,
because the source casts the input length to a signed 32-bit integer
before the completeness check, and `2 ^ 31` wraps to a negative value. -/
theorem C2_counterexample :
    (0 :: List.replicate (2 ^ 31 - 1) 0 : List Nat) ≠ [] ∧
    (0 :: List.replicate (2 ^ 31 - 1) 0 : List Nat).headI < 127 ∧
    ¬ ((0 :: List.replicate (2 ^ 31 - 1) 0 : List Nat).length <
        headerLenOf (0 :: List.replicate (2 ^ 31 - 1) 0) +
          wordCountOf (0 :: List.replicate (2 ^ 31 - 1) 0) * 4) ∧
    unpackBytes (0 :: List.replicate (2 ^ 31 - 1) 0) [] =
      Except.error Transport.Error.MissingBytes := by
  have hlen : (0 :: List.replicate (2 ^ 31 - 1) 0 : List Nat).length =
      2 ^ 31 := by
    rw [List.length_cons, List.length_replicate]
    omega
  have hcast : usizeAsI32 (2 ^ 31) < ((1 + 0 * 4 : Nat) : Int) := by
    unfold usizeAsI32
    norm_num
  refine ⟨List.cons_ne_nil _ _, ?_, ?_, ?_⟩
  · rw [List.headI_cons]
    norm_num
  · rw [hlen]
    unfold headerLenOf wordCountOf
    rw [List.headI_cons]
    simp only [if_pos (by norm_num : (0 : Nat) < 127)]
    omega
  · unfold unpackBytes
    rw [hlen, List.headI_cons]
    rw [if_neg (by norm_num : ¬ (2 : Nat) ^ 31 = 0)]
    rw [if_pos (by norm_num : (0 : Nat) < 127)]
    rw [if_pos hcast]
/-- C2 (amended): for byte inputs shorter than `2 ^ 31` bytes — the
threshold forced by the cast of the input length to a signed 32-bit
integer — `unpack` fails with `MissingBytes` exactly when the input is
empty, or the first byte selects the long-form header but fewer than
four bytes are present, or the input is shorter than the decoded header
length plus four times the decoded word count; in every other case it
succeeds. The model returns the output sink only on success, matching
the source, where the sink is written and bytes are consumed only after
every check has passed. -/
theorem C2_missing_bytes (input out : List Nat)
    (_hb : ∀ b ∈ input, b < 256) (hlen : input.length < 2 ^ 31) :
    (unpackBytes input out = Except.error Transport.Error.MissingBytes ↔
      (input = [] ∨ (127 ≤ input.headI ∧ input.length < 4) ∨
        input.length < headerLenOf input + wordCountOf input * 4)) ∧
    (unpackBytes input out ≠ Except.error Transport.Error.MissingBytes →
      ∃ o n, unpackBytes input out = Except.ok (o, n)) := by
  rw [unpackBytes_eq input out hlen]
  constructor
  · constructor
    · intro h
      by_cases hc : input.length = 0 ∨
          (127 ≤ input.headI ∧ input.length < 4) ∨
          input.length < headerLenOf input + wordCountOf input * 4
      · rcases hc with hc | hc
        · exact Or.inl (List.length_eq_zero.mp hc)
        · exact Or.inr hc
      · rw [if_neg hc] at h
        exact absurd h (by simp)
    · intro h
      have hc : input.length = 0 ∨
          (127 ≤ input.headI ∧ input.length < 4) ∨
          input.length < headerLenOf input + wordCountOf input * 4 := by
        rcases h with h | h
        · exact Or.inl (by rw [h]; rfl)
        · exact Or.inr h
      rw [if_pos hc]
  · intro h
    by_cases hc : input.length = 0 ∨
        (127 ≤ input.headI ∧ input.length < 4) ∨
        input.length < headerLenOf input + wordCountOf input * 4
    · rw [if_pos hc] at h
      exact absurd rfl h
    · rw [if_neg hc]
      exact ⟨_, _, rfl⟩

/-- Witness for the amended C2 on a complete short-form envelope and on
a truncated long-form header. -/
theorem C2_missing_bytes_witness :
    (∀ b ∈ ([1, 5, 6, 7, 8] : List Nat), b < 256) ∧
    ([1, 5, 6, 7, 8] : List Nat).length < 2 ^ 31 ∧
    (unpackBytes [1, 5, 6, 7, 8] [] =
        Except.error Transport.Error.MissingBytes ↔
      (([1, 5, 6, 7, 8] : List Nat) = [] ∨
        (127 ≤ ([1, 5, 6, 7, 8] : List Nat).headI ∧
          ([1, 5, 6, 7, 8] : List Nat).length < 4) ∨
        ([1, 5, 6, 7, 8] : List Nat).length <
          headerLenOf [1, 5, 6, 7, 8] + wordCountOf [1, 5, 6, 7, 8] * 4)) :=
  ⟨by decide, by decide,
    (C2_missing_bytes [1, 5, 6, 7, 8] [] (by decide) (by decide)).1⟩
/-- C3: Short-header form: a word-aligned payload whose word count is
strictly below 127 is packed as exactly one header byte equal to the
word count followed by the raw payload bytes, preceded only by the
marker byte when it has not yet been emitted. -/
theorem C3_short_header (t : Abridged) (P out : List Nat)
    (h4 : P.length % 4 = 0) (hwc : P.length / 4 < 127) :
    t.pack P out =
      some (⟨true⟩, out ++ (if t.init then [] else [0xef]) ++
        (P.length / 4 :: P)) := by
  rw [pack_eq t P out h4]
  simp [envelope, hwc]

set_option maxRecDepth 100000 in
/-- Witness for C3: a 504-byte payload (126 words) uses the short form
with header byte 126. -/
theorem C3_short_header_witness :
    ((List.replicate 504 (0 : Nat)).length % 4 = 0) ∧
    ((List.replicate 504 (0 : Nat)).length / 4 < 127) ∧
    ((List.replicate 504 (0 : Nat)).length / 4 = 126) ∧
    Abridged.pack ⟨true⟩ (List.replicate 504 0) [] =
      some (⟨true⟩, [] ++ (if (Abridged.mk true).init then [] else [0xef]) ++
        ((List.replicate 504 (0 : Nat)).length / 4 :: List.replicate 504 0)) :=
  ⟨by decide, by decide, by decide,
    C3_short_header ⟨true⟩ (List.replicate 504 0) [] (by decide) (by decide)⟩

/-- C4: Long-header form: a word-aligned payload whose word count is at
least 127 is packed as the sentinel byte `0x7F` followed by the three
low-order little-endian bytes of the word count — equal to the three
low-order bytes of the word count modulo `2 ^ 24` — then the raw
payload bytes, preceded only by the marker byte when it has not yet
been emitted. -/
theorem C4_long_header (t : Abridged) (P out : List Nat)
    (h4 : P.length % 4 = 0) (hwc : 127 ≤ P.length / 4) :
    t.pack P out =
      some (⟨true⟩, out ++ (if t.init then [] else [0xef]) ++
        (0x7f :: P.length / 4 % 256 ::
          P.length / 4 / 256 % 256 ::
          P.length / 4 / 65536 % 256 :: P)) := by
  have e1 : P.length / 4 % 2 ^ 32 % 256 = P.length / 4 % 256 := by
    rw [Nat.mod_mod_of_dvd _ (by norm_num : (256 : Nat) ∣ 2 ^ 32)]
  have e2 : P.length / 4 % 2 ^ 32 / 256 % 256 = P.length / 4 / 256 % 256 := by
    conv_lhs =>
      rw [(by norm_num : (2 : Nat) ^ 32 = 256 * 2 ^ 24),
        Nat.mod_mul_right_div_self]
    rw [Nat.mod_mod_of_dvd _ (by norm_num : (256 : Nat) ∣ 2 ^ 24)]
  have e3 : P.length / 4 % 2 ^ 32 / 65536 % 256 =
      P.length / 4 / 65536 % 256 := by
    conv_lhs =>
      rw [(by norm_num : (2 : Nat) ^ 32 = 65536 * 65536),
        Nat.mod_mul_right_div_self]
    rw [Nat.mod_mod_of_dvd _ (by norm_num : (256 : Nat) ∣ 65536)]
  rw [pack_eq t P out h4]
  simp only [envelope, toLeBytes3]
  rw [if_neg (show ¬ P.length / 4 < 127 from by omega)]
  rw [e1, e2, e3]
  simp [List.cons_append]

set_option maxRecDepth 100000 in
/-- Witness for C4: a fresh codec packing 1024 zero bytes emits the
marker and the header bytes `[0x7F, 0x00, 0x01, 0x00]` before the
payload, since 1024 / 4 = 256 = 0x000100 little-endian. -/
theorem C4_long_header_witness :
    ((List.replicate 1024 (0 : Nat)).length % 4 = 0) ∧
    (127 ≤ (List.replicate 1024 (0 : Nat)).length / 4) ∧
    Abridged.new.pack (List.replicate 1024 0) [] =
      some (⟨true⟩, [] ++ (if Abridged.new.init then [] else [0xef]) ++
        (0x7f :: (List.replicate 1024 (0 : Nat)).length / 4 % 256 ::
          (List.replicate 1024 (0 : Nat)).length / 4 / 256 % 256 ::
          (List.replicate 1024 (0 : Nat)).length / 4 / 65536 % 256 ::
          List.replicate 1024 0)) ∧
    (List.replicate 1024 (0 : Nat)).length / 4 % 256 = 0 ∧
    (List.replicate 1024 (0 : Nat)).length / 4 / 256 % 256 = 1 ∧
    (List.replicate 1024 (0 : Nat)).length / 4 / 65536 % 256 = 0 :=
  ⟨by decide, by decide,
    C4_long_header Abridged.new (List.replicate 1024 0) [] (by decide)
      (by decide),
    by decide, by decide, by decide⟩
/-- C5: On success `unpack` appends exactly the slice of the input from
the end of the header through the decoded payload length, unchanged, to
the output sink, and returns header length plus payload byte length;
and on the concatenation of two complete envelopes a single call
decodes only the first payload and consumes exactly the first envelope,
leaving the second intact. -/
theorem C5_success (P1 P2 out : List Nat)
    (h1 : P1.length % 4 = 0) (hw1 : P1.length / 4 < 2 ^ 24)
    (h2 : P2.length % 4 = 0) (hw2 : P2.length / 4 < 2 ^ 24) :
    (∀ input o n, input.length < 2 ^ 31 →
      unpackBytes input out = Except.ok (o, n) →
      n = headerLenOf input + wordCountOf input * 4 ∧
      o = out ++ (input.drop (headerLenOf input)).take
        (wordCountOf input * 4)) ∧
    unpackBytes (envelope P1 ++ envelope P2) out =
      Except.ok (out ++ P1, (envelope P1).length) := by
  constructor
  · intro input o n hlen hok
    rw [unpackBytes_eq input out hlen] at hok
    by_cases hc : input.length = 0 ∨
        (127 ≤ input.headI ∧ input.length < 4) ∨
        input.length < headerLenOf input + wordCountOf input * 4
    · rw [if_pos hc] at hok
      exact absurd hok (by simp)
    · rw [if_neg hc] at hok
      have h := Except.ok.inj hok
      exact ⟨(congrArg Prod.snd h).symm, (congrArg Prod.fst h).symm⟩
  · have l1 := envelope_length P1
    have l2 := envelope_length P2
    apply unpack_envelope P1 (envelope P2) out h1 hw1
    split at l1 <;> split at l2 <;> omega

/-- Witness for C5 at two concrete four-byte payloads. -/
theorem C5_success_witness :
    unpackBytes (envelope [1, 2, 3, 4] ++ envelope [5, 6, 7, 8]) [] =
      Except.ok ([] ++ [1, 2, 3, 4], (envelope [1, 2, 3, 4]).length) :=
  (C5_success [1, 2, 3, 4] [5, 6, 7, 8] [] (by decide) (by decide)
    (by decide) (by decide)).2

/-- C6: `pack` fails fast on every payload whose length is not a
multiple of four — the assertion fires, modelled as `none`, before any
byte is appended to the sink — and under the alignment precondition the
assertion branch is unreachable: `pack` always returns a result. -/
theorem C6_alignment_assert (t : Abridged) (P out : List Nat) :
    (P.length % 4 ≠ 0 → t.pack P out = none) ∧
    (P.length % 4 = 0 → t.pack P out ≠ none) := by
  constructor
  · intro h
    simp [Abridged.pack, h]
  · intro h
    rw [pack_eq t P out h]
    simp

/-- Witness for C6 at a misaligned one-byte payload and an aligned
four-byte payload. -/
theorem C6_alignment_assert_witness :
    Abridged.new.pack [0] [] = none ∧
    Abridged.new.pack [0, 0, 0, 0] [] ≠ none :=
  ⟨(C6_alignment_assert Abridged.new [0] []).1 (by decide),
    (C6_alignment_assert Abridged.new [0, 0, 0, 0] []).2 (by decide)⟩

/-- C7: Marker emitted exactly once: a nonempty sequence of `pack`
calls on a fresh codec produces exactly one `0xEF` marker byte, at the
very start of the combined output, followed by exactly the envelopes of
the payloads; the first `pack` sets `init` to true, and no envelope
begins with the marker value, every envelope head byte being below
128. -/
theorem C7_marker_once (ps : List (List Nat)) (out : List Nat)
    (hne : ps ≠ []) (hal : ∀ p ∈ ps, p.length % 4 = 0) :
    packAll Abridged.new ps out =
      some (⟨true⟩, out ++ 0xef :: (ps.map envelope).flatten) ∧
    ∀ p ∈ ps, (envelope p).headI < 128 := by
  constructor
  · cases ps with
    | nil => exact absurd rfl hne
    | cons p rest =>
      have h4 := hal p (by simp)
      simp only [packAll, Abridged.new, pack_eq ⟨false⟩ p out h4]
      rw [packAll_of_init rest _ (fun q hq => hal q (by simp [hq]))]
      simp [List.append_assoc]
  · intro p _
    exact envelope_headI_lt p

/-- Witness for C7 at two empty payloads: the combined output is the
marker byte followed by two zero-length envelopes. -/
theorem C7_marker_once_witness :
    packAll Abridged.new [[], []] [] =
      some (⟨true⟩,
        [] ++ 0xef :: (([[], []] : List (List Nat)).map envelope).flatten) ∧
    ∀ p ∈ ([[], []] : List (List Nat)), (envelope p).headI < 128 :=
  C7_marker_once [[], []] [] (by decide) (by decide)

/-- C8: `reset` sets `init` back to false, and from any starting state
the first `pack` call after a `reset` again prepends the `0xEF` marker
byte before the envelope. -/
theorem C8_reset_rearms (t : Abridged) (P out : List Nat)
    (h4 : P.length % 4 = 0) :
    t.reset.init = false ∧
    t.reset.pack P out = some (⟨true⟩, out ++ 0xef :: envelope P) := by
  refine ⟨rfl, ?_⟩
  rw [pack_eq t.reset P out h4]
  simp [Abridged.reset]

/-- Witness for C8 on an already initialized codec and the empty
payload. -/
theorem C8_reset_rearms_witness :
    (Abridged.mk true).reset.init = false ∧
    (Abridged.mk true).reset.pack [] [] =
      some (⟨true⟩, [] ++ 0xef :: envelope []) :=
  C8_reset_rearms ⟨true⟩ [] [] (by decide)
/-- C9: `unpack` is state-independent: its outcome — error or success,
the appended bytes and the consumed count — equals the pure function
`unpackBytes` of the input bytes for every starting state, and the
codec state returned on success is exactly the state passed in. -/
theorem C9_state_independent (t1 t2 : Abridged) (input out : List Nat) :
    t1.unpack input out =
      (unpackBytes input out).map (fun r => (t1, r.1, r.2)) ∧
    (∀ t' o n, t1.unpack input out = Except.ok (t', o, n) → t' = t1) ∧
    (∀ e, t1.unpack input out = Except.error e ↔
      t2.unpack input out = Except.error e) ∧
    (∀ o n, (∃ s, t1.unpack input out = Except.ok (s, o, n)) ↔
      (∃ s, t2.unpack input out = Except.ok (s, o, n))) := by
  unfold Abridged.unpack
  cases h : unpackBytes input out with
  | error e =>
    cases e
    refine ⟨rfl, ?_, ?_, ?_⟩
    · intro t' o n hok
      exact absurd hok (by simp)
    · intro e
      exact Iff.rfl
    · intro o n
      constructor
      · rintro ⟨s, hs⟩
        exact absurd hs (by simp)
      · rintro ⟨s, hs⟩
        exact absurd hs (by simp)
  | ok r =>
    obtain ⟨o0, n0⟩ := r
    refine ⟨rfl, ?_, ?_, ?_⟩
    · intro t' o n hok
      simp only [Except.ok.injEq] at hok
      exact (congrArg Prod.fst hok).symm
    · intro e
      constructor
      · intro hbad
        exact absurd hbad (by simp)
      · intro hbad
        exact absurd hbad (by simp)
    · intro o n
      constructor
      · rintro ⟨s, hs⟩
        simp only [Except.ok.injEq, Prod.mk.injEq] at hs
        exact ⟨t2, by simp [hs.2.1, hs.2.2]⟩
      · rintro ⟨s, hs⟩
        simp only [Except.ok.injEq, Prod.mk.injEq] at hs
        exact ⟨t1, by simp [hs.2.1, hs.2.2]⟩

/-- Witness for C9 on a fresh and an initialized codec with a concrete
complete envelope as input. -/
theorem C9_state_independent_witness :
    (Abridged.mk false).unpack [1, 7, 7, 7, 7] [] =
      (unpackBytes [1, 7, 7, 7, 7] []).map
        (fun r => (Abridged.mk false, r.1, r.2)) ∧
    (∀ t' o n, (Abridged.mk false).unpack [1, 7, 7, 7, 7] [] =
      Except.ok (t', o, n) → t' = Abridged.mk false) ∧
    (∀ e, (Abridged.mk false).unpack [1, 7, 7, 7, 7] [] =
        Except.error e ↔
      (Abridged.mk true).unpack [1, 7, 7, 7, 7] [] = Except.error e) ∧
    (∀ o n, (∃ s, (Abridged.mk false).unpack [1, 7, 7, 7, 7] [] =
        Except.ok (s, o, n)) ↔
      (∃ s, (Abridged.mk true).unpack [1, 7, 7, 7, 7] [] =
        Except.ok (s, o, n))) :=
  C9_state_independent ⟨false⟩ ⟨true⟩ [1, 7, 7, 7, 7] []

/-- C10: every first byte of value at least 127 — not only the sentinel
`0x7F` but also 128 through 255, such as an unstripped `0xEF` marker
byte — selects the long-form four-byte header, with the word count read
from the next three little-endian bytes; no first-byte value is
rejected as malformed: for inputs below `2 ^ 31` bytes the call either
fails with `MissingBytes` or succeeds with the long-form slice. -/
theorem C10_long_discriminant (input out : List Nat)
    (hne : input ≠ []) (hb : 127 ≤ input.headI)
    (hlen : input.length < 2 ^ 31) :
    (input.length < 4 →
      unpackBytes input out = Except.error Transport.Error.MissingBytes) ∧
    (4 ≤ input.length →
      input.length <
          4 + (input.getD 1 0 + input.getD 2 0 * 256 +
            input.getD 3 0 * 65536) * 4 →
      unpackBytes input out = Except.error Transport.Error.MissingBytes) ∧
    (4 + (input.getD 1 0 + input.getD 2 0 * 256 +
        input.getD 3 0 * 65536) * 4 ≤ input.length →
      unpackBytes input out =
        Except.ok (out ++ (input.drop 4).take
          ((input.getD 1 0 + input.getD 2 0 * 256 +
            input.getD 3 0 * 65536) * 4),
          4 + (input.getD 1 0 + input.getD 2 0 * 256 +
            input.getD 3 0 * 65536) * 4)) := by
  have h0 : ¬ input.length = 0 := by
    cases input with
    | nil => exact absurd rfl hne
    | cons a l => simp
  have hHL : headerLenOf input = 4 := by
    unfold headerLenOf
    rw [if_neg (show ¬ input.headI < 127 from by omega)]
  have hWC : wordCountOf input =
      input.getD 1 0 + input.getD 2 0 * 256 + input.getD 3 0 * 65536 := by
    unfold wordCountOf
    rw [if_neg (show ¬ input.headI < 127 from by omega)]
  refine ⟨?_, ?_, ?_⟩
  · intro hlt
    rw [unpackBytes_eq input out hlen,
      if_pos (Or.inr (Or.inl ⟨hb, hlt⟩))]
  · intro hge hlt
    rw [unpackBytes_eq input out hlen,
      if_pos (Or.inr (Or.inr (by rw [hHL, hWC]; omega)))]
  · intro hle
    rw [unpackBytes_eq input out hlen,
      if_neg (show ¬ _ from by
        rw [hHL, hWC]
        push_neg
        refine ⟨h0, fun _ => by omega, by omega⟩),
      hHL, hWC]

/-- Witness for C10 at an input whose first byte is the unstripped
marker `0xEF`, followed by the little-endian word count 1 and one word
of payload: the word count is decoded from bytes one through three and
the call succeeds. -/
theorem C10_long_discriminant_witness :
    ([0xef, 1, 0, 0, 9, 9, 9, 9] : List Nat) ≠ [] ∧
    127 ≤ ([0xef, 1, 0, 0, 9, 9, 9, 9] : List Nat).headI ∧
    ([0xef, 1, 0, 0, 9, 9, 9, 9] : List Nat).length < 2 ^ 31 ∧
    unpackBytes [0xef, 1, 0, 0, 9, 9, 9, 9] [] =
      Except.ok ([] ++ (([0xef, 1, 0, 0, 9, 9, 9, 9] : List Nat).drop 4).take
        ((([0xef, 1, 0, 0, 9, 9, 9, 9] : List Nat).getD 1 0 +
          ([0xef, 1, 0, 0, 9, 9, 9, 9] : List Nat).getD 2 0 * 256 +
          ([0xef, 1, 0, 0, 9, 9, 9, 9] : List Nat).getD 3 0 * 65536) * 4),
        4 + (([0xef, 1, 0, 0, 9, 9, 9, 9] : List Nat).getD 1 0 +
          ([0xef, 1, 0, 0, 9, 9, 9, 9] : List Nat).getD 2 0 * 256 +
          ([0xef, 1, 0, 0, 9, 9, 9, 9] : List Nat).getD 3 0 * 65536) * 4) :=
  ⟨by decide, by decide, by decide,
    (C10_long_discriminant [0xef, 1, 0, 0, 9, 9, 9, 9] [] (by decide)
      (by decide) (by decide)).2.2 (by decide)⟩
